import Mathlib

/-!
Verification of the neuron-activation capture and analysis pipeline.

Tensors are modelled as a flat row-major rational data list together with a
shape.  The shape normalizer, the per-category importance ranking, the
majority-shape filtering, the activation-capture hook machinery and the
capture run loop are translated directly from the Python source
(`analyze_all_emotions.py` and `detailed_activations.py`), and their
specified properties are proved below the definitions.
-/

namespace NanoMI

/-- A captured tensor: a shape together with the flat row-major data. -/
structure Tensor where
  shape : List Nat
  data : List ℚ
deriving DecidableEq, Repr

/-- Column means of a flat row-major `(s, f)` array: entry `j` is the mean of
column `j` over the `s` rows (`np.mean(x, axis=0)` on a 2-D array). -/
def meanAxis0 (s f : Nat) (d : List ℚ) : List ℚ :=
  (List.range f).map (fun j => ((List.range s).map (fun i => d.getD (i * f + j) 0)).sum / s)

/-- The shape-normalization rules of `load_activations` (lines 69–96 of
`analyze_all_emotions.py`), applied in the source's priority order:
`(1,1,f)` is squeezed, `(1,s,f)` is averaged over the sequence axis,
`(s,f)` is averaged over its first axis, rank 1 is kept, and anything
else is flattened completely. -/
def normalize_one (t : Tensor) : Tensor :=
  if t.shape.length = 3 ∧ t.shape.getD 0 0 = 1 ∧ t.shape.getD 1 0 = 1 then
    { shape := [t.shape.getD 2 0], data := t.data.take (t.shape.getD 2 0) }
  else if t.shape.length = 3 ∧ t.shape.getD 0 0 = 1 then
    { shape := [t.shape.getD 2 0],
      data := meanAxis0 (t.shape.getD 1 0) (t.shape.getD 2 0) t.data }
  else if t.shape.length = 2 then
    { shape := [t.shape.getD 1 0],
      data := meanAxis0 (t.shape.getD 0 0) (t.shape.getD 1 0) t.data }
  else if t.shape.length = 1 then t
  else { shape := [t.data.length], data := t.data }

/-- C2: `normalize_one` applies the five shape rules in priority order
(singleton-squeeze, sequence-average for a leading batch of 1, first-axis
average for rank 2, identity for rank 1, full flatten otherwise), always
produces a rank-1 result, and is the identity on rank-1 input. -/
theorem claimC2_normalize_one (t : Tensor) :
    (normalize_one t).shape.length = 1
    ∧ (t.shape.length = 1 → normalize_one t = t)
    ∧ (∀ f, t.shape = [1, 1, f] →
        normalize_one t = { shape := [f], data := t.data.take f })
    ∧ (∀ s f, t.shape = [1, s, f] → s ≠ 1 →
        normalize_one t = { shape := [f], data := meanAxis0 s f t.data })
    ∧ (∀ s f, t.shape = [s, f] →
        normalize_one t = { shape := [f], data := meanAxis0 s f t.data })
    ∧ (t.shape.length ≠ 1 → t.shape.length ≠ 2 →
        ¬(t.shape.length = 3 ∧ t.shape.getD 0 0 = 1) →
        normalize_one t = { shape := [t.data.length], data := t.data }) := by
  refine ⟨?_, ?_, ?_, ?_, ?_, ?_⟩
  · unfold normalize_one
    split
    · simp
    · split
      · simp
      · split
        · simp
        · split
          · next h1 h2 h3 h4 => exact h4
          · simp
  · intro h
    unfold normalize_one
    rw [if_neg (by omega), if_neg (by omega), if_neg (by omega), if_pos h]
  · intro f hf
    unfold normalize_one
    rw [if_pos (by simp [hf])]
    simp [hf]
  · intro s f hf hs
    unfold normalize_one
    rw [if_neg (by simp [hf]; omega), if_pos (by simp [hf])]
    simp [hf]
  · intro s f hf
    unfold normalize_one
    rw [if_neg (by simp [hf]), if_neg (by simp [hf]), if_pos (by simp [hf])]
    simp [hf]
  · intro h1 h2 h3
    unfold normalize_one
    rw [if_neg (by intro h; exact h3 ⟨h.1, h.2.1⟩), if_neg (by intro h; exact h3 ⟨h.1, h.2⟩),
      if_neg h2, if_neg h1]

/-- Witness for C2: the rank-1 identity rule evaluated at a concrete vector. -/
theorem claimC2_normalize_one_witness :
    normalize_one { shape := [2], data := [5, 6] } = { shape := [2], data := [5, 6] } :=
  (claimC2_normalize_one { shape := [2], data := [5, 6] }).2.1 rfl

/-- Rows of the matrix whose parallel label equals the category
(`activations_array[np.where(labels == emotion)]`). -/
def inPart (m : List (List ℚ)) (labels : List String) (c : String) : List (List ℚ) :=
  ((m.zip labels).filter (fun p => p.2 == c)).map Prod.fst

/-- Rows of the matrix whose parallel label differs from the category
(`activations_array[np.where(labels != emotion)]`). -/
def outPart (m : List (List ℚ)) (labels : List String) (c : String) : List (List ℚ) :=
  ((m.zip labels).filter (fun p => !(p.2 == c))).map Prod.fst

/-- Mean of column `j` over a list of rows (`np.mean(rows, axis=0)` at `j`). -/
def colMeanAt (rows : List (List ℚ)) (j : Nat) : ℚ :=
  (rows.map (fun r => r.getD j 0)).sum / rows.length

/-- The per-feature mean-difference score `emotion_mean - other_mean` at
feature `j` (line 174 of `analyze_all_emotions.py`). -/
def scoreDiff (m : List (List ℚ)) (labels : List String) (c : String) (j : Nat) : ℚ :=
  colMeanAt (inPart m labels c) j - colMeanAt (outPart m labels c) j

/-- The score vector `diff = emotion_mean - other_mean` over the `w` feature
columns of the stacked activation matrix. -/
def diffVec (w : Nat) (m : List (List ℚ)) (labels : List String) (c : String) : List ℚ :=
  (List.range w).map (fun j => scoreDiff m labels c j)

/-- Documented contract of the external library call `np.argsort(-v)` under
the default sort kind: the result is some permutation of the index range
that arranges `v` in descending order.  The default `quicksort` is
documented as not stable, so the relative order of tied values is
implementation-defined — in particular it need not be ascending-index. -/
def isArgsortDesc (v : List ℚ) (perm : List Nat) : Prop :=
  perm.Perm (List.range v.length)
  ∧ perm.Pairwise (fun i j => v.getD i 0 ≥ v.getD j 0)

instance (v : List ℚ) (perm : List Nat) : Decidable (isArgsortDesc v perm) := by
  unfold isArgsortDesc; infer_instance

/-- The per-(category, layer) neuron importance computation of
`load_activations` (lines 157–187): partition the rows, take the column-mean
difference, and keep the first `min 20 w` entries of the index permutation
returned by the external `np.argsort(-diff)` call, paired with their raw
scores; if either partition is empty, no ranking is produced.  The
permutation the library returns is a parameter, constrained only by its
documented contract `isArgsortDesc`. -/
def importance (w : Nat) (m : List (List ℚ)) (labels : List String) (c : String)
    (perm : List Nat) : List (Nat × ℚ) :=
  if (inPart m labels c).length > 0 ∧ (outPart m labels c).length > 0 then
    (perm.take (min 20 (diffVec w m labels c).length)).map
      (fun i => (i, (diffVec w m labels c).getD i 0))
  else []

/-- Evaluating a range-map list at an in-range index. -/
theorem getD_range_map (f : Nat → ℚ) (w i : Nat) (h : i < w) :
    ((List.range w).map f).getD i 0 = f i := by
  rw [List.getD_eq_getElem?_getD, List.getElem?_map, List.getElem?_range h]
  rfl

/-- The score vector evaluated at an in-range feature index. -/
theorem diffVec_getD (w : Nat) (m : List (List ℚ)) (labels : List String) (c : String)
    (i : Nat) (h : i < w) : (diffVec w m labels c).getD i 0 = scoreDiff m labels c i := by
  unfold diffVec
  exact getD_range_map _ _ _ h

/-- C1 counterexample: with both partitions non-empty and two tied scores
(`diff = [0, 0]`), the permutation `[1, 0]` satisfies the documented
descending-order contract of `np.argsort(-diff)` — whose default quicksort
is not stable, so this tie order is a permitted library behaviour — yet the
resulting ranking lists index 1 before index 0, contradicting the claimed
ascending-original-index (stable) tie-breaking. -/
theorem claimC1_counterexample :
    isArgsortDesc (diffVec 2 [[0, 0], [0, 0]] ["a", "b"] "a") [1, 0]
    ∧ importance 2 [[0, 0], [0, 0]] ["a", "b"] "a" [1, 0] = [(1, 0), (0, 0)]
    ∧ importance 2 [[0, 0], [0, 0]] ["a", "b"] "a" [1, 0] ≠ [(0, 0), (1, 0)] := by
  have hdv : diffVec 2 [[0, 0], [0, 0]] ["a", "b"] "a" = [0, 0] := by
    simp +decide [diffVec, scoreDiff, colMeanAt, inPart, outPart, List.range_succ]
  have himp : importance 2 [[0, 0], [0, 0]] ["a", "b"] "a" [1, 0] = [(1, 0), (0, 0)] := by
    unfold importance
    rw [if_pos (by decide), hdv]
    decide
  refine ⟨⟨?_, ?_⟩, himp, ?_⟩
  · rw [hdv]
    decide
  · rw [hdv]
    decide
  · rw [himp]
    decide

/-- C1 (amended): for any index permutation satisfying the documented
descending-order contract of `np.argsort(-diff)` (the relative order of
tied scores being implementation-defined, not guaranteed stable): if either
label partition is empty the importance result is empty; otherwise that
permutation ranks all `w` feature indices by descending column-mean
difference, and the result pairs its first `min 20 w` indices with their
raw scores. -/
theorem claimC1_importance (w : Nat) (m : List (List ℚ)) (labels : List String)
    (c : String) (perm : List Nat)
    (hperm : isArgsortDesc (diffVec w m labels c) perm) :
    ((inPart m labels c = [] ∨ outPart m labels c = []) →
      importance w m labels c perm = [])
    ∧ (inPart m labels c ≠ [] → outPart m labels c ≠ [] →
        perm.Perm (List.range w)
        ∧ perm.Pairwise (fun i j =>
            scoreDiff m labels c i ≥ scoreDiff m labels c j)
        ∧ (importance w m labels c perm).length = min 20 w
        ∧ importance w m labels c perm
            = (perm.take (min 20 w)).map (fun i => (i, scoreDiff m labels c i))) := by
  have hdl : (diffVec w m labels c).length = w := by simp [diffVec]
  have hpr : perm.Perm (List.range w) := by
    have h1 := hperm.1
    rw [hdl] at h1
    exact h1
  have hlt : ∀ i ∈ perm, i < w := by
    intro i hi
    have := hpr.mem_iff.1 hi
    simpa [List.mem_range] using this
  constructor
  · intro h
    unfold importance
    rw [if_neg]
    rintro ⟨hin, hout⟩
    rcases h with h | h
    · rw [h] at hin; simp at hin
    · rw [h] at hout; simp at hout
  · intro hin hout
    refine ⟨hpr, ?_, ?_, ?_⟩
    · refine hperm.2.imp_of_mem ?_
      intro a b ha hb hr
      have hda : (diffVec w m labels c).getD a 0 = scoreDiff m labels c a :=
        diffVec_getD w m labels c a (hlt a ha)
      have hdb : (diffVec w m labels c).getD b 0 = scoreDiff m labels c b :=
        diffVec_getD w m labels c b (hlt b hb)
      rw [hda, hdb] at hr
      exact hr
    · have hplen : perm.length = w := by
        rw [hpr.length_eq, List.length_range]
      unfold importance
      rw [if_pos ⟨List.length_pos.2 hin, List.length_pos.2 hout⟩]
      rw [List.length_map, List.length_take, hdl, hplen]
      omega
    · unfold importance
      rw [if_pos ⟨List.length_pos.2 hin, List.length_pos.2 hout⟩, hdl]
      refine List.map_congr_left ?_
      intro i hi
      have : i < w := hlt i (List.mem_of_mem_take hi)
      rw [diffVec_getD w m labels c i this]

/-- Witness for C1 (amended): on a concrete 3×2 matrix with labels a, b, a
and the contract-satisfying permutation `[0, 1]`, both partitions are
non-empty and the ranking is as described. -/
theorem claimC1_importance_witness :
    List.Perm ([0, 1] : List Nat) (List.range 2)
    ∧ ([0, 1] : List Nat).Pairwise (fun i j =>
        scoreDiff [[1, 0], [0, 1], [1, 1]] ["a", "b", "a"] "a" i
          ≥ scoreDiff [[1, 0], [0, 1], [1, 1]] ["a", "b", "a"] "a" j)
    ∧ (importance 2 [[1, 0], [0, 1], [1, 1]] ["a", "b", "a"] "a" [0, 1]).length
        = min 20 2
    ∧ importance 2 [[1, 0], [0, 1], [1, 1]] ["a", "b", "a"] "a" [0, 1]
        = (([0, 1] : List Nat).take (min 20 2)).map
            (fun i => (i, scoreDiff [[1, 0], [0, 1], [1, 1]] ["a", "b", "a"] "a" i)) :=
  (claimC1_importance 2 [[1, 0], [0, 1], [1, 1]] ["a", "b", "a"] "a" [0, 1]
    (by
      have hdv : diffVec 2 [[1, 0], [0, 1], [1, 1]] ["a", "b", "a"] "a" = [1, -1/2] := by
        simp +decide [diffVec, scoreDiff, colMeanAt, inPart, outPart, List.range_succ]
        norm_num
      constructor
      · rw [hdv]
        decide
      · rw [hdv]
        norm_num [List.getD])).2 (by decide) (by decide)

/-- Number of occurrences of a shape in a list of shapes
(`Counter(shapes)[s]`). -/
def countShape (s : List Nat) (shapes : List (List Nat)) : Nat :=
  (shapes.filter (fun r => r == s)).length

/-- The most frequent shape, ties broken by first occurrence
(`Counter(shapes).most_common(1)[0][0]`). -/
def mostCommonShape (shapes : List (List Nat)) : List Nat :=
  shapes.foldl
    (fun best s => if countShape s shapes > countShape best shapes then s else best)
    (shapes.headD [])

/-- The shape-recovery path of `load_activations` (lines 116–154): normalize
every tensor, and if the resulting shapes disagree keep only the entries
whose shape is the most common one (in original order), reporting how many
entries were dropped. -/
def normalize_many (ts : List (Tensor × String)) : List (Tensor × String) × Nat :=
  let vs := ts.map (fun p => (normalize_one p.1, p.2))
  let shapes := vs.map (fun p => p.1.shape)
  if shapes.all (fun s => s == shapes.headD []) then (vs, 0)
  else
    let kept := vs.filter (fun p => p.1.shape == mostCommonShape shapes)
    (kept, vs.length - kept.length)

/-- Folding the keep-the-better-shape step never decreases the count of the
accumulator. -/
theorem foldl_best_count_le (cnt : List Nat → Nat) :
    ∀ (l : List (List Nat)) (a : List Nat),
      cnt a ≤ cnt (l.foldl (fun best s => if cnt s > cnt best then s else best) a) := by
  intro l
  induction l with
  | nil => intro a; exact Nat.le_refl _
  | cons s l ih =>
    intro a
    simp only [List.foldl_cons]
    by_cases h : cnt s > cnt a
    · rw [if_pos h]
      exact Nat.le_trans (Nat.le_of_lt h) (ih s)
    · rw [if_neg h]
      exact ih a

/-- The fold result dominates the count of every listed shape. -/
theorem foldl_best_count_max (cnt : List Nat → Nat) :
    ∀ (l : List (List Nat)) (a s : List Nat), s ∈ l →
      cnt s ≤ cnt (l.foldl (fun best x => if cnt x > cnt best then x else best) a) := by
  intro l
  induction l with
  | nil => intro a s h; cases h
  | cons x l ih =>
    intro a s h
    simp only [List.foldl_cons]
    rcases List.mem_cons.1 h with rfl | h
    · by_cases hx : cnt s > cnt a
      · rw [if_pos hx]
        exact foldl_best_count_le cnt l s
      · rw [if_neg hx]
        exact Nat.le_trans (Nat.le_of_not_lt hx) (foldl_best_count_le cnt l a)
    · exact ih _ s h

/-- The fold result is the start value or one of the listed shapes. -/
theorem foldl_best_mem (cnt : List Nat → Nat) :
    ∀ (l : List (List Nat)) (a : List Nat),
      l.foldl (fun best x => if cnt x > cnt best then x else best) a = a
      ∨ l.foldl (fun best x => if cnt x > cnt best then x else best) a ∈ l := by
  intro l
  induction l with
  | nil => intro a; exact Or.inl rfl
  | cons x l ih =>
    intro a
    simp only [List.foldl_cons]
    by_cases hx : cnt x > cnt a
    · rw [if_pos hx]
      rcases ih x with h | h
      · exact Or.inr (by rw [h]; exact List.mem_cons_self x l)
      · exact Or.inr (List.mem_cons_of_mem x h)
    · rw [if_neg hx]
      rcases ih a with h | h
      · exact Or.inl h
      · exact Or.inr (List.mem_cons_of_mem x h)

/-- The selected shape occurs in the list and its count dominates all. -/
theorem mostCommonShape_spec (shapes : List (List Nat)) (hne : shapes ≠ []) :
    mostCommonShape shapes ∈ shapes
    ∧ ∀ s ∈ shapes, countShape s shapes ≤ countShape (mostCommonShape shapes) shapes := by
  constructor
  · unfold mostCommonShape
    rcases foldl_best_mem (fun s => countShape s shapes) shapes (shapes.headD []) with h | h
    · rw [h]
      cases shapes with
      | nil => exact absurd rfl hne
      | cons x l => exact List.mem_cons_self x l
    · exact h
  · intro s hs
    exact foldl_best_count_max (fun x => countShape x shapes) shapes _ s hs

/-- Filtering by a shape keeps exactly as many entries as the shape count. -/
theorem length_filter_eq_countShape (vs : List (Tensor × String)) (s : List Nat) :
    (vs.filter (fun p => p.1.shape == s)).length
      = countShape s (vs.map (fun p => p.1.shape)) := by
  induction vs with
  | nil => rfl
  | cons v vs ih =>
    unfold countShape
    by_cases h : v.1.shape = s
    · simp only [List.filter_cons, List.map_cons, h, beq_self_eq_true, if_pos,
        List.length_cons]
      unfold countShape at ih
      omega
    · have hb : (v.1.shape == s) = false := beq_false_of_ne h
      simp only [List.filter_cons, List.map_cons, hb, if_neg, Bool.false_eq_true,
        not_false_eq_true]
      exact ih

/-- C3: when the normalized vector shapes disagree, `normalize_many` keeps, in
original order, exactly the entries whose shape is the most frequent one (a
shape actually present whose count dominates every other), and the reported
discard count is `N - M` where `N` is the input count and `M` is the number
of entries sharing that majority shape. -/
theorem claimC3_normalize_many (ts : List (Tensor × String))
    (hdis : ¬((ts.map (fun p => (normalize_one p.1, p.2))).map (fun p => p.1.shape)).all
      (fun s => s == ((ts.map (fun p => (normalize_one p.1, p.2))).map
        (fun p => p.1.shape)).headD [])) :
    let vs := ts.map (fun p => (normalize_one p.1, p.2))
    let shapes := vs.map (fun p => p.1.shape)
    let maj := mostCommonShape shapes
    (normalize_many ts).1 = vs.filter (fun p => p.1.shape == maj)
    ∧ (normalize_many ts).1.Sublist vs
    ∧ (∀ p ∈ (normalize_many ts).1, p.1.shape = maj)
    ∧ maj ∈ shapes
    ∧ (∀ s ∈ shapes, countShape s shapes ≤ countShape maj shapes)
    ∧ (normalize_many ts).1.length = countShape maj shapes
    ∧ (normalize_many ts).2 = ts.length - countShape maj shapes := by
  intro vs shapes maj
  have hdis2 : ¬(shapes.all (fun s => s == shapes.headD [])) = true := hdis
  have hne : shapes ≠ [] := by
    intro h
    rw [h] at hdis2
    exact hdis2 rfl
  have hkey : normalize_many ts
      = (vs.filter (fun p => p.1.shape == maj),
         vs.length - (vs.filter (fun p => p.1.shape == maj)).length) := by
    simp only [normalize_many]
    rw [if_neg hdis]
  have hcnt : (vs.filter (fun p => p.1.shape == maj)).length = countShape maj shapes :=
    length_filter_eq_countShape vs maj
  have hlen : vs.length = ts.length := List.length_map _ _
  refine ⟨by rw [hkey], ?_, ?_, ?_, ?_, ?_, ?_⟩
  · rw [hkey]
    exact List.filter_sublist vs
  · intro p hp
    rw [hkey] at hp
    have := List.of_mem_filter hp
    exact eq_of_beq this
  · exact (mostCommonShape_spec shapes hne).1
  · exact (mostCommonShape_spec shapes hne).2
  · rw [hkey]
    exact hcnt
  · rw [hkey]
    simp only
    rw [hcnt, hlen]

/-- Witness for C3: three rank-1 vectors with shapes `[2]`, `[3]`, `[2]`
disagree; the majority shape `[2]` keeps two entries and discards one. -/
theorem claimC3_normalize_many_witness :
    (normalize_many
        [({ shape := [2], data := [1, 2] }, "a"),
         ({ shape := [3], data := [1, 2, 3] }, "b"),
         ({ shape := [2], data := [3, 4] }, "c")]).1.length
      = countShape (mostCommonShape
          (([({ shape := [2], data := [1, 2] }, "a"),
             ({ shape := [3], data := [1, 2, 3] }, "b"),
             ({ shape := [2], data := [3, 4] }, "c")].map
              (fun p => (normalize_one p.1, p.2))).map (fun p => p.1.shape)))
          (([({ shape := [2], data := [1, 2] }, "a"),
             ({ shape := [3], data := [1, 2, 3] }, "b"),
             ({ shape := [2], data := [3, 4] }, "c")].map
              (fun p => (normalize_one p.1, p.2))).map (fun p => p.1.shape)) :=
  (claimC3_normalize_many
    [({ shape := [2], data := [1, 2] }, "a"),
     ({ shape := [3], data := [1, 2, 3] }, "b"),
     ({ shape := [2], data := [3, 4] }, "c")] (by decide)).2.2.2.2.2.1

/-- The mutable state of `DetailedActivationCapturer`: the registered hook
handles, the per-cycle activation dictionary, and the capture toggle. -/
structure CapturerState where
  hooks : List String
  activations : List (String × Tensor)
  capture_enabled : Bool
deriving DecidableEq, Repr

/-- The value a hooked module hands to the forward hook: either a bare tensor
or a tuple-like result whose first element is the primary tensor. -/
inductive HookOutput where
  | single (t : Tensor)
  | tuple (t : Tensor) (rest : List Tensor)
deriving DecidableEq, Repr

/-- Takes `outputs[0]` for tuple results, the output itself otherwise
(lines 167–171 of `detailed_activations.py`). -/
def primaryTensor : HookOutput → Tensor
  | HookOutput.single t => t
  | HookOutput.tuple t _ => t

/-- The slice `output[:, -1, :]` of a rank-3 `[batch, seq, feature]` tensor:
for every batch row, the features of the last sequence position. -/
def lastPosSlice (t : Tensor) : Tensor :=
  { shape := [t.shape.getD 0 0, t.shape.getD 2 0],
    data := ((List.range (t.shape.getD 0 0)).map (fun i =>
      (List.range (t.shape.getD 2 0)).map (fun j =>
        t.data.getD (i * (t.shape.getD 1 0) * (t.shape.getD 2 0)
          + ((t.shape.getD 1 0) - 1) * (t.shape.getD 2 0) + j) 0))).flatten }

/-- Python-dict assignment `d[k] = v`: overwrite in place if the key exists,
otherwise append the new binding at the end. -/
def dictInsert (k : String) (v : Tensor) : List (String × Tensor) → List (String × Tensor)
  | [] => [(k, v)]
  | p :: rest => if p.1 = k then (k, v) :: rest else p :: dictInsert k v rest

/-- Python-dict lookup `d.get(k)`. -/
def lookupD {α : Type} (k : String) : List (String × α) → Option α
  | [] => none
  | p :: rest => if p.1 = k then some p.2 else lookupD k rest

/-- The forward hook built by `_capture_hook` (lines 161–180): a no-op while
capturing is disabled; otherwise it takes the primary tensor, reduces a
rank-3 output to its last sequence position, stores anything else as-is, and
overwrites the stored value for this component. -/
def storedTensor (out : HookOutput) : Tensor :=
  if (primaryTensor out).shape.length = 3 then lastPosSlice (primaryTensor out)
  else primaryTensor out

/-- One invocation of the forward hook on the capturer state. -/
def captureHook (st : CapturerState) (name : String) (out : HookOutput) : CapturerState :=
  if st.capture_enabled then
    { st with activations := dictInsert name (storedTensor out) st.activations }
  else st

/-- All hook callbacks fired during one forward pass, in execution order. -/
def runEvents (st : CapturerState) (events : List (String × HookOutput)) : CapturerState :=
  events.foldl (fun s p => captureHook s p.1 p.2) st

/-- Source `start_capture` (lines 260–263): clear the activation dictionary and set
the capture flag — unconditionally. -/
def start_capture (st : CapturerState) : CapturerState :=
  { st with activations := [], capture_enabled := true }

/-- Source `stop_capture` (lines 265–267): clear the capture flag. -/
def stop_capture (st : CapturerState) : CapturerState :=
  { st with capture_enabled := false }

/-- Source `remove_hooks` (lines 254–258): detach every hook handle. -/
def remove_hooks (st : CapturerState) : CapturerState :=
  { st with hooks := [] }

/-- Looking up the key just inserted returns the inserted value. -/
theorem lookupD_dictInsert (k : String) (v : Tensor) (d : List (String × Tensor)) :
    lookupD k (dictInsert k v d) = some v := by
  induction d with
  | nil => simp [dictInsert, lookupD]
  | cons p rest ih =>
    unfold dictInsert
    by_cases h : p.1 = k
    · rw [if_pos h]
      simp [lookupD]
    · rw [if_neg h]
      unfold lookupD
      rw [if_neg h]
      exact ih

/-- C4 counterexample: with capture enabled, a rank-2 output is stored
unchanged, not flattened — the claim's full-flatten fallback does not match
the code, which stores any non-rank-3 tensor as-is with no warning. -/
theorem claimC4_counterexample :
    (captureHook { hooks := [], activations := [], capture_enabled := true } "x"
        (HookOutput.single { shape := [2, 3], data := [1, 2, 3, 4, 5, 6] })).activations
      = [("x", { shape := [2, 3], data := [1, 2, 3, 4, 5, 6] })]
    ∧ ({ shape := [2, 3], data := [1, 2, 3, 4, 5, 6] } : Tensor)
      ≠ { shape := [6], data := [1, 2, 3, 4, 5, 6] } := by
  constructor
  · rfl
  · decide

/-- C4 (amended): while capture is enabled the hook stores, under the
component's name, the primary tensor of the site result — reduced to its
last sequence position when it has rank 3, and stored unchanged (not
flattened) for every other shape; the hook is total, so the cycle never
aborts. -/
theorem claimC4_hook (st : CapturerState) (name : String) (out : HookOutput)
    (h : st.capture_enabled = true) :
    lookupD name (captureHook st name out).activations
      = some (if (primaryTensor out).shape.length = 3
              then lastPosSlice (primaryTensor out) else primaryTensor out) := by
  unfold captureHook
  rw [if_pos h]
  exact lookupD_dictInsert name _ st.activations

/-- Witness for C4: a concrete rank-1 output is stored unchanged. -/
theorem claimC4_hook_witness :
    lookupD "x" (captureHook { hooks := [], activations := [], capture_enabled := true } "x"
        (HookOutput.single { shape := [4], data := [1, 2, 3, 4] })).activations
      = some ({ shape := [4], data := [1, 2, 3, 4] } : Tensor) := by
  rw [claimC4_hook { hooks := [], activations := [], capture_enabled := true } "x"
    (HookOutput.single { shape := [4], data := [1, 2, 3, 4] }) rfl]
  decide

/-- C6 counterexample: from a state already in the capturing phase, a second
`start_capture` with no intervening collect returns normally — a silent
reset to an empty dictionary with the flag still set — instead of raising a
state error. -/
theorem claimC6_counterexample :
    start_capture (start_capture
        { hooks := ["input_embeds"],
          activations := [("a", { shape := [1], data := [1] })],
          capture_enabled := false })
      = { hooks := ["input_embeds"], activations := [], capture_enabled := true } := rfl

/-- C6 (amended): calling `start_capture` while a capture cycle is already
open does not raise; it silently discards the stored activations and keeps
the instance in the capturing phase. -/
theorem claimC6_start_capture (st : CapturerState) (hcap : st.capture_enabled = true) :
    start_capture st = { hooks := st.hooks, activations := [], capture_enabled := true }
    ∧ (start_capture st).capture_enabled = true := by
  exact ⟨rfl, rfl⟩

/-- Witness for C6 (amended) at a concrete capturing state. -/
theorem claimC6_start_capture_witness :
    start_capture
        { hooks := ["h1"], activations := [("a", { shape := [1], data := [2] })],
          capture_enabled := true }
      = { hooks := ["h1"], activations := [], capture_enabled := true } :=
  (claimC6_start_capture
    { hooks := ["h1"], activations := [("a", { shape := [1], data := [2] })],
      capture_enabled := true } rfl).1

/-- C7: while capture is disabled every hook callback is a no-op, so an
entire inference worth of hook events leaves the capturer state — in
particular the stored activations mapping — unchanged, and no sample can be
recorded for that inference. -/
theorem claimC7_disabled_noop (st : CapturerState) (events : List (String × HookOutput))
    (h : st.capture_enabled = false) : runEvents st events = st := by
  induction events with
  | nil => rfl
  | cons e rest ih =>
    unfold runEvents
    rw [List.foldl_cons]
    have hstep : captureHook st e.1 e.2 = st := by
      unfold captureHook
      rw [h]
      simp
    rw [hstep]
    exact ih

/-- Witness for C7: a concrete disabled state is untouched by a hook event. -/
theorem claimC7_disabled_noop_witness :
    runEvents { hooks := ["h1"], activations := [], capture_enabled := false }
        [("a", HookOutput.single { shape := [1], data := [3] })]
      = { hooks := ["h1"], activations := [], capture_enabled := false } :=
  claimC7_disabled_noop
    { hooks := ["h1"], activations := [], capture_enabled := false }
    [("a", HookOutput.single { shape := [1], data := [3] })] rfl

/-- One input example: raw text and its category label. -/
structure ExampleInput where
  text : String
  label : String
deriving DecidableEq, Repr

/-- One stored activation record `{data, label, tweet_id}`.  The source's
`tweet_id = str(i)` is modelled by the processing index `i` itself (decimal
rendering of distinct naturals is distinct). -/
structure Sample where
  data : Tensor
  label : String
  tweet_id : Nat
deriving DecidableEq, Repr

/-- External collaborators of the capture run: the model's context window and
layer count, the tokenizer, and the model forward pass — the latter returns
the hook events fired during inference plus the generated text, or an
inference error. -/
structure RunConfig where
  block_size : Nat
  n_layer : Nat
  encode : String → List Nat
  infer : List Nat → Except Unit (List (String × HookOutput) × String)

/-- Python tail slice `l[-k:]`: for `k = 0` this is `l[0:]`, the whole list;
otherwise the last `k` elements. -/
def pySliceLast (k : Nat) (l : List Nat) : List Nat :=
  if k = 0 then l else l.drop (l.length - k)

/-- The truncation step of `capture_detailed_activations` (lines 339–342):
`if input_tensor.size(1) > block_size: input_tensor = input_tensor[:, -block_size:]`. -/
def cropTokens (block_size : Nat) (ids : List Nat) : List Nat :=
  if ids.length > block_size then pySliceLast block_size ids else ids

/-- The per-component sample lists accumulated by the run
(`activation_data`). -/
abbrev ActData := List (String × List Sample)

/-- Appending one sample to a component's list in the accumulator
(lines 363–373): create the list on first sight of the component, else
append at the end. -/
def dictAppend (name : String) (s : Sample) : ActData → ActData
  | [] => [(name, [s])]
  | p :: rest =>
      if p.1 = name then (p.1, p.2 ++ [s]) :: rest else p :: dictAppend name s rest

/-- The component names attached by `register_hooks` (lines 182–252). -/
def hookNames (n_layer : Nat) : List String :=
  ["input_embeds"]
    ++ (List.range n_layer).flatMap (fun i =>
        ["layer_" ++ toString i ++ "_output",
         "layer_" ++ toString i ++ "_ln_1",
         "layer_" ++ toString i ++ "_attn",
         "layer_" ++ toString i ++ "_attn_proj",
         "layer_" ++ toString i ++ "_ln_2",
         "layer_" ++ toString i ++ "_mlp",
         "layer_" ++ toString i ++ "_mlp_fc"])
    ++ ["final_layer"]

/-- Source `register_hooks`: append all observation points to the hook list. -/
def register_hooks (n_layer : Nat) (st : CapturerState) : CapturerState :=
  { st with hooks := st.hooks ++ hookNames n_layer }

/-- The per-example loop of `capture_detailed_activations` (lines 324–387):
tokenize, start capture, crop to the context window, run the forward pass
(firing the hooks), stop capture, and append one sample per observed
component; an inference error propagates out of the loop.  The pair returned
is the loop outcome together with the capturer state at exit. -/
def captureLoop (cfg : RunConfig) :
    List ExampleInput → Nat → CapturerState → ActData → Except Unit ActData × CapturerState
  | [], _, st, acc => (Except.ok acc, st)
  | tw :: rest, i, st, acc =>
    let ids := cfg.encode tw.text
    let st1 := start_capture st
    let toks := cropTokens cfg.block_size ids
    match cfg.infer toks with
    | Except.error e => (Except.error e, st1)
    | Except.ok (events, _gen) =>
      let st2 := stop_capture (runEvents st1 events)
      let acc2 := st2.activations.foldl
        (fun a p => dictAppend p.1 { data := p.2, label := tw.label, tweet_id := i } a) acc
      captureLoop cfg rest (i + 1) st2 acc2

/-- Source `capture_detailed_activations` (lines 274–424): register the hooks, run
the loop inside `try`, and — on the `finally` path taken by every exit,
normal or raising — remove all hooks. -/
def capture_detailed_activations (cfg : RunConfig) (tweets : List ExampleInput) :
    Except Unit ActData × CapturerState :=
  let st0 := register_hooks cfg.n_layer
    { hooks := [], activations := [], capture_enabled := false }
  let res := captureLoop cfg tweets 0 st0 []
  (res.1, remove_hooks res.2)

/-- C5: for every capture run — whether it completes normally or exits with
an inference error — the teardown runs before the result is produced, and
afterwards the set of registered observation points is empty. -/
theorem claimC5_teardown (cfg : RunConfig) (tweets : List ExampleInput) :
    (capture_detailed_activations cfg tweets).2.hooks = [] := by
  unfold capture_detailed_activations
  rfl

/-- C8 counterexample: with a (degenerate) context window of 0 and a
one-token sequence, the guard `len > block_size` fires but the Python slice
`[:, -0:]` keeps the whole sequence, so the model is not given the most
recent `block_size` (= 0) tokens. -/
theorem claimC8_counterexample :
    cropTokens 0 [5] = [5]
    ∧ ([5] : List Nat).length > 0
    ∧ cropTokens 0 [5] ≠ List.drop (([5] : List Nat).length - 0) [5] := by
  refine ⟨rfl, by decide, by decide⟩

/-- C8 (amended): for every positive context window, an over-long token
sequence is cropped to exactly its most recent `block_size` tokens (the
suffix obtained by dropping the oldest ones), and a sequence at or under the
limit is passed unchanged. -/
theorem claimC8_crop (block_size : Nat) (ids : List Nat) (hbs : 1 ≤ block_size) :
    (ids.length > block_size →
      cropTokens block_size ids = ids.drop (ids.length - block_size)
      ∧ (cropTokens block_size ids).length = block_size)
    ∧ (ids.length ≤ block_size → cropTokens block_size ids = ids) := by
  constructor
  · intro hlong
    have hcrop : cropTokens block_size ids = ids.drop (ids.length - block_size) := by
      unfold cropTokens pySliceLast
      rw [if_pos hlong, if_neg (by omega)]
    refine ⟨hcrop, ?_⟩
    rw [hcrop, List.length_drop]
    omega
  · intro hshort
    unfold cropTokens
    rw [if_neg (by omega)]

/-- Witness for C8: window 2 over three tokens keeps the last two. -/
theorem claimC8_crop_witness :
    cropTokens 2 [1, 2, 3] = List.drop 1 [1, 2, 3]
    ∧ (cropTokens 2 [1, 2, 3]).length = 2 :=
  (claimC8_crop 2 [1, 2, 3] (by decide)).1 (by decide)

/-- The activation dictionary never holds two entries with the same key. -/
def keysNodup (d : List (String × Tensor)) : Prop :=
  d.Pairwise (fun a b => a.1 ≠ b.1)

/-- Every entry of `dictInsert k v d` is the new binding or an old entry. -/
theorem mem_dictInsert (k : String) (v : Tensor) (d : List (String × Tensor))
    (p : String × Tensor) (hp : p ∈ dictInsert k v d) : p.1 = k ∨ p ∈ d := by
  induction d with
  | nil =>
    simp only [dictInsert, List.mem_singleton] at hp
    exact Or.inl (by rw [hp])
  | cons q rest ih =>
    unfold dictInsert at hp
    by_cases h : q.1 = k
    · rw [if_pos h] at hp
      rcases List.mem_cons.1 hp with rfl | hp
      · exact Or.inl rfl
      · exact Or.inr (List.mem_cons_of_mem q hp)
    · rw [if_neg h] at hp
      rcases List.mem_cons.1 hp with rfl | hp
      · exact Or.inr (List.mem_cons_self _ _)
      · rcases ih hp with h2 | h2
        · exact Or.inl h2
        · exact Or.inr (List.mem_cons_of_mem q h2)

/-- Python-dict assignment preserves key uniqueness. -/
theorem keysNodup_dictInsert (k : String) (v : Tensor) (d : List (String × Tensor))
    (h : keysNodup d) : keysNodup (dictInsert k v d) := by
  induction d with
  | nil => simp [dictInsert, keysNodup]
  | cons q rest ih =>
    have hq : ∀ b ∈ rest, q.1 ≠ b.1 := fun b hb => List.rel_of_pairwise_cons h hb
    have hrest : keysNodup rest := List.Pairwise.of_cons h
    unfold dictInsert
    by_cases hk : q.1 = k
    · rw [if_pos hk]
      exact List.Pairwise.cons (fun b hb => by rw [← hk]; exact hq b hb) hrest
    · rw [if_neg hk]
      refine List.Pairwise.cons ?_ (ih hrest)
      intro b hb
      rcases mem_dictInsert k v rest b hb with h1 | h1
      · rw [h1]; exact hk
      · exact hq b h1

/-- The hook callbacks preserve key uniqueness of the activation map. -/
theorem keysNodup_runEvents (events : List (String × HookOutput)) :
    ∀ (st : CapturerState), keysNodup st.activations →
      keysNodup (runEvents st events).activations := by
  induction events with
  | nil => intro st h; exact h
  | cons e rest ih =>
    intro st h
    unfold runEvents
    rw [List.foldl_cons]
    apply ih
    unfold captureHook
    by_cases he : st.capture_enabled
    · rw [if_pos he]
      exact keysNodup_dictInsert e.1 _ st.activations h
    · rw [if_neg he]
      exact h

/-- Appending under a key extends exactly that key's list by the sample. -/
theorem lookupD_dictAppend_self (name : String) (s : Sample) (acc : ActData) :
    lookupD name (dictAppend name s acc) = some ((lookupD name acc).getD [] ++ [s]) := by
  induction acc with
  | nil => simp [dictAppend, lookupD]
  | cons p rest ih =>
    unfold dictAppend
    by_cases h : p.1 = name
    · rw [if_pos h]
      unfold lookupD
      rw [if_pos h, if_pos h]
      rfl
    · rw [if_neg h]
      unfold lookupD
      rw [if_neg h, if_neg h]
      exact ih

/-- Appending under one key leaves every other key's list unchanged. -/
theorem lookupD_dictAppend_ne (name name2 : String) (s : Sample) (acc : ActData)
    (h : name2 ≠ name) :
    lookupD name2 (dictAppend name s acc) = lookupD name2 acc := by
  induction acc with
  | nil =>
    simp only [dictAppend, lookupD]
    rw [if_neg (fun hx => h hx.symm)]
  | cons p rest ih =>
    unfold dictAppend
    by_cases hp : p.1 = name
    · rw [if_pos hp]
      unfold lookupD
      rw [if_neg (by rw [hp]; exact fun hx => h hx.symm),
        if_neg (by rw [hp]; exact fun hx => h hx.symm)]
    · rw [if_neg hp]
      unfold lookupD
      by_cases hp2 : p.1 = name2
      · rw [if_pos hp2, if_pos hp2]
      · rw [if_neg hp2, if_neg hp2]
        exact ih

/-- Folding one inference's observed components into the accumulator: the
observed component keys are distinct within the inference, every new sample
carries the current example index and label, so per-component id-uniqueness,
id-determined labels, and the id bound are all preserved. -/
theorem foldAppend_good (ℓ : Nat → String) (i : Nat) (lbl : String) (hlbl : ℓ i = lbl) :
    ∀ (ps : List (String × Tensor)) (acc : ActData),
      ps.Pairwise (fun a b => a.1 ≠ b.1) →
      (∀ name l, lookupD name acc = some l →
        l.Pairwise (fun a b => a.tweet_id ≠ b.tweet_id)
        ∧ (∀ s ∈ l, s.label = ℓ s.tweet_id)
        ∧ (∀ s ∈ l, s.tweet_id < i + 1)
        ∧ ((∃ q ∈ ps, q.1 = name) → ∀ s ∈ l, s.tweet_id < i)) →
      ∀ name l,
        lookupD name (ps.foldl
            (fun a p => dictAppend p.1 { data := p.2, label := lbl, tweet_id := i } a) acc)
          = some l →
        l.Pairwise (fun a b => a.tweet_id ≠ b.tweet_id)
        ∧ (∀ s ∈ l, s.label = ℓ s.tweet_id)
        ∧ (∀ s ∈ l, s.tweet_id < i + 1) := by
  intro ps
  induction ps with
  | nil =>
    intro acc _ hacc name l hl
    exact ⟨(hacc name l hl).1, (hacc name l hl).2.1, (hacc name l hl).2.2.1⟩
  | cons q ps ih =>
    intro acc hkeys hacc
    rw [List.foldl_cons]
    apply ih _ (List.Pairwise.of_cons hkeys)
    intro name l hl
    by_cases hn : name = q.1
    · rw [hn, lookupD_dictAppend_self] at hl
      have hl2 : (lookupD q.1 acc).getD [] ++ [{ data := q.2, label := lbl, tweet_id := i }]
          = l := by
        injection hl
      have hold : ((lookupD q.1 acc).getD []).Pairwise
            (fun a b => a.tweet_id ≠ b.tweet_id)
          ∧ (∀ s ∈ (lookupD q.1 acc).getD [], s.label = ℓ s.tweet_id)
          ∧ (∀ s ∈ (lookupD q.1 acc).getD [], s.tweet_id < i) := by
        cases hx : lookupD q.1 acc with
        | none => simp
        | some l0 =>
          have h4 := hacc q.1 l0 hx
          refine ⟨h4.1, h4.2.1, ?_⟩
          exact h4.2.2.2 ⟨q, List.mem_cons_self q ps, rfl⟩
      rw [← hl2]
      refine ⟨?_, ?_, ?_, ?_⟩
      · rw [List.pairwise_append]
        refine ⟨hold.1, List.pairwise_singleton _ _, ?_⟩
        intro a ha b hb
        rw [List.mem_singleton] at hb
        subst hb
        have := hold.2.2 a ha
        simp only
        omega
      · intro s hs
        rcases List.mem_append.1 hs with hs | hs
        · exact hold.2.1 s hs
        · rw [List.mem_singleton] at hs
          subst hs
          simpa using hlbl.symm
      · intro s hs
        rcases List.mem_append.1 hs with hs | hs
        · have := hold.2.2 s hs
          omega
        · rw [List.mem_singleton] at hs
          subst hs
          simp
      · rintro ⟨q2, hq2, he⟩
        exfalso
        have hne : q.1 ≠ q2.1 := List.rel_of_pairwise_cons hkeys hq2
        exact hne (hn.symm.trans he.symm)
    · rw [lookupD_dictAppend_ne q.1 name _ acc (fun hx => hn hx)] at hl
      have h4 := hacc name l hl
      refine ⟨h4.1, h4.2.1, h4.2.2.1, ?_⟩
      rintro ⟨q2, hq2, he⟩
      exact h4.2.2.2 ⟨q2, List.mem_cons_of_mem q hq2, he⟩

/-- Through the whole capture loop the accumulator keeps per-component
id-unique sample lists whose labels are determined by the example index. -/
theorem captureLoop_good (cfg : RunConfig) (ℓ : Nat → String) :
    ∀ (rest : List ExampleInput) (i : Nat) (st : CapturerState) (acc acc2 : ActData),
      (∀ k, k < rest.length → ℓ (i + k) = (rest.getD k { text := "", label := "" }).label) →
      (∀ name l, lookupD name acc = some l →
        l.Pairwise (fun a b => a.tweet_id ≠ b.tweet_id)
        ∧ (∀ s ∈ l, s.label = ℓ s.tweet_id)
        ∧ (∀ s ∈ l, s.tweet_id < i)) →
      (captureLoop cfg rest i st acc).1 = Except.ok acc2 →
      ∀ name l, lookupD name acc2 = some l →
        l.Pairwise (fun a b => a.tweet_id ≠ b.tweet_id)
        ∧ (∀ s ∈ l, s.label = ℓ s.tweet_id) := by
  intro rest
  induction rest with
  | nil =>
    intro i st acc acc2 _ hacc hok
    have heq : acc = acc2 := by
      unfold captureLoop at hok
      exact Except.ok.inj hok
    subst heq
    intro name l hl
    exact ⟨(hacc name l hl).1, (hacc name l hl).2.1⟩
  | cons tw rest ih =>
    intro i st acc acc2 hlab hacc hok
    simp only [captureLoop] at hok
    cases hinf : cfg.infer (cropTokens cfg.block_size (cfg.encode tw.text)) with
    | error e =>
      rw [hinf] at hok
      simp at hok
    | ok res =>
      rw [hinf] at hok
      obtain ⟨events, gen⟩ := res
      have hok2 : (captureLoop cfg rest (i + 1)
          (stop_capture (runEvents (start_capture st) events))
          ((stop_capture (runEvents (start_capture st) events)).activations.foldl
            (fun a p => dictAppend p.1 { data := p.2, label := tw.label, tweet_id := i } a)
            acc)).1 = Except.ok acc2 := hok
      have hkeys : keysNodup
          (stop_capture (runEvents (start_capture st) events)).activations := by
        have hstart : keysNodup (start_capture st).activations := by
          simp [start_capture, keysNodup]
        exact keysNodup_runEvents events (start_capture st) hstart
      have hlbl : ℓ i = tw.label := by
        have h0 := hlab 0 (by simp)
        simpa using h0
      have hgood := foldAppend_good ℓ i tw.label hlbl
        (stop_capture (runEvents (start_capture st) events)).activations acc hkeys
        (fun name l hl => ⟨(hacc name l hl).1, (hacc name l hl).2.1,
          fun s hs => Nat.lt_succ_of_lt ((hacc name l hl).2.2 s hs),
          fun _ s hs => (hacc name l hl).2.2 s hs⟩)
      have hlab2 : ∀ k, k < rest.length →
          ℓ (i + 1 + k) = (rest.getD k { text := "", label := "" }).label := by
        intro k hk
        have h1 := hlab (k + 1) (by simpa using Nat.succ_lt_succ hk)
        rw [show i + 1 + k = i + (k + 1) by omega]
        simpa using h1
      exact ih (i + 1)
        (stop_capture (runEvents (start_capture st) events)) _ acc2 hlab2
        (fun name l hl => hgood name l hl) hok2

/-- C9: in every completed capture run every component's sample list has at
most one entry per example id (ids are pairwise distinct within the list),
and any two samples of any components that share an example id carry the
same label. -/
theorem claimC9_run_invariants (cfg : RunConfig) (tweets : List ExampleInput) (acc : ActData)
    (h : (capture_detailed_activations cfg tweets).1 = Except.ok acc) :
    (∀ name l, lookupD name acc = some l →
      l.Pairwise (fun a b => a.tweet_id ≠ b.tweet_id))
    ∧ (∀ n1 n2 l1 l2 s1 s2,
        lookupD n1 acc = some l1 → lookupD n2 acc = some l2 →
        s1 ∈ l1 → s2 ∈ l2 → s1.tweet_id = s2.tweet_id → s1.label = s2.label) := by
  have hok : (captureLoop cfg tweets 0
      (register_hooks cfg.n_layer
        { hooks := [], activations := [], capture_enabled := false }) []).1
      = Except.ok acc := h
  have hmain := captureLoop_good cfg
    (fun k => (tweets.getD k { text := "", label := "" }).label) tweets 0
    (register_hooks cfg.n_layer
      { hooks := [], activations := [], capture_enabled := false }) [] acc
    (fun k hk => by simp)
    (fun name l hl => by simp [lookupD] at hl)
    hok
  constructor
  · intro name l hl
    exact (hmain name l hl).1
  · intro n1 n2 l1 l2 s1 s2 h1 h2 hs1 hs2 hid
    have e1 := (hmain n1 l1 h1).2 s1 hs1
    have e2 := (hmain n2 l2 h2).2 s2 hs2
    rw [e1, e2, hid]

/-- Witness for C9: a two-example run with one observed component yields a
sample list whose example ids are pairwise distinct. -/
theorem claimC9_run_invariants_witness :
    ([{ data := { shape := [1], data := [1] }, label := "joy", tweet_id := 0 },
      { data := { shape := [1], data := [1] }, label := "sad", tweet_id := 1 }] :
        List Sample).Pairwise (fun a b => a.tweet_id ≠ b.tweet_id) :=
  (claimC9_run_invariants
    { block_size := 4, n_layer := 0, encode := fun _ => [0],
      infer := fun _ =>
        Except.ok ([("a", HookOutput.single { shape := [1], data := [1] })], "t") }
    [{ text := "x", label := "joy" }, { text := "y", label := "sad" }]
    [("a", [{ data := { shape := [1], data := [1] }, label := "joy", tweet_id := 0 },
            { data := { shape := [1], data := [1] }, label := "sad", tweet_id := 1 }])]
    rfl).1 "a" _ rfl

/-- The fixed list of layers the analysis focuses on (line 36 of
`analyze_all_emotions.py`). -/
def key_layers_all : List String := ["final_layer", "layer_11", "layer_10", "layer_9"]

/-- Python's `f.endswith(sfx)`: the characters of `sfx` are a suffix of the
characters of `f`. -/
def endsWithPy (f sfx : String) : Bool :=
  sfx.data.isSuffixOf f.data

/-- The filenames ending in `_activations.pt` found in the run directory. -/
def activationFiles (files : List String) : List String :=
  files.filter (fun f => endsWithPy f "_activations.pt")

/-- The layers actually analyzed: the fixed candidates whose activation file
is present (lines 37–39). -/
def selectKeyLayers (files : List String) : List String :=
  key_layers_all.filter (fun l => (activationFiles files).contains (l ++ "_activations.pt"))

/-- The enumerate-with-skip loop over one layer's records (lines 54–105):
entries whose index is at or beyond the metadata label count are skipped,
the rest are shape-normalized and paired with their label. -/
def processLayerAux (labels : List String) : Nat → List Tensor → List (Tensor × String)
  | _, [] => []
  | i, t :: rest =>
    if i < labels.length then
      (normalize_one t, labels.getD i "") :: processLayerAux labels (i + 1) rest
    else processLayerAux labels (i + 1) rest

/-- Processing one layer's record list from index 0. -/
def processLayer (labels : List String) (items : List Tensor) : List (Tensor × String) :=
  processLayerAux labels 0 items

/-- The analysis phase of `load_activations`: one processed record list per
selected key layer, reading that layer's activation file. -/
def loadActivations (files : List String) (content : String → List Tensor)
    (labels : List String) : List (String × List (Tensor × String)) :=
  (selectKeyLayers files).map (fun l => (l, processLayer labels (content l)))

/-- Once the index passes the label count the rest of the records are
skipped. -/
theorem processLayerAux_length (labels : List String) :
    ∀ (items : List Tensor) (i : Nat),
      (processLayerAux labels i items).length = min items.length (labels.length - i) := by
  intro items
  induction items with
  | nil => intro i; simp [processLayerAux]
  | cons t rest ih =>
    intro i
    unfold processLayerAux
    by_cases h : i < labels.length
    · rw [if_pos h]
      simp only [List.length_cons, ih (i + 1)]
      omega
    · rw [if_neg h]
      rw [ih (i + 1)]
      simp only [List.length_cons]
      omega

/-- The kept entries are, in order, the normalized records paired with their
own label. -/
theorem processLayerAux_getD (labels : List String) :
    ∀ (items : List Tensor) (i k : Nat),
      k < min items.length (labels.length - i) →
      (processLayerAux labels i items).getD k ({ shape := [], data := [] }, "")
        = (normalize_one (items.getD k { shape := [], data := [] }),
           labels.getD (i + k) "") := by
  intro items
  induction items with
  | nil => intro i k hk; simp at hk
  | cons t rest ih =>
    intro i k hk
    unfold processLayerAux
    have hi : i < labels.length := by
      simp only [List.length_cons] at hk
      omega
    rw [if_pos hi]
    cases k with
    | zero => simp
    | succ k2 =>
      simp only [List.getD_cons_succ]
      rw [ih (i + 1) k2 (by simp only [List.length_cons] at hk; omega)]
      rw [show i + 1 + k2 = i + (k2 + 1) by omega]

/-- C10: the analysis phase produces results exactly for the fixed key layers
whose activation file exists (in the fixed order), every other component is
ignored, and within a layer a record is kept iff its index is below the
metadata label count — kept records are the normalized tensors paired with
their own label, in order. -/
theorem claimC10_analysis_scope (files : List String) (content : String → List Tensor)
    (labels : List String) :
    ((loadActivations files content labels).map Prod.fst = selectKeyLayers files)
    ∧ (∀ l, l ∈ selectKeyLayers files ↔
        l ∈ key_layers_all ∧ (l ++ "_activations.pt") ∈ files)
    ∧ (∀ items, (processLayer labels items).length = min items.length labels.length)
    ∧ (∀ items k, k < min items.length labels.length →
        (processLayer labels items).getD k ({ shape := [], data := [] }, "")
          = (normalize_one (items.getD k { shape := [], data := [] }),
             labels.getD k "")) := by
  refine ⟨?_, ?_, ?_, ?_⟩
  · unfold loadActivations
    rw [List.map_map]
    exact List.map_id _
  · intro l
    unfold selectKeyLayers
    rw [List.mem_filter]
    constructor
    · rintro ⟨hmem, hcont⟩
      refine ⟨hmem, ?_⟩
      have h2 : (l ++ "_activations.pt") ∈ activationFiles files := by
        simpa using hcont
      exact (List.mem_filter.1 h2).1
    · rintro ⟨hmem, hfile⟩
      refine ⟨hmem, ?_⟩
      have h2 : (l ++ "_activations.pt") ∈ activationFiles files := by
        unfold activationFiles
        rw [List.mem_filter]
        refine ⟨hfile, ?_⟩
        fin_cases hmem <;> decide
      simpa using h2
  · intro items
    unfold processLayer
    rw [processLayerAux_length labels items 0]
    omega
  · intro items k hk
    unfold processLayer
    rw [processLayerAux_getD labels items 0 k (by omega)]
    rw [Nat.zero_add]

/-- Witness for C10: one present key-layer file and one stray component; the
stray is ignored and the over-length record is skipped. -/
theorem claimC10_analysis_scope_witness :
    ("layer_10" ∈ selectKeyLayers ["layer_10_activations.pt", "stray_activations.pt"]
      ↔ "layer_10" ∈ key_layers_all
        ∧ ("layer_10" ++ "_activations.pt")
            ∈ ["layer_10_activations.pt", "stray_activations.pt"])
    ∧ (processLayer ["a"]
        [{ shape := [1], data := [2] }, { shape := [1], data := [3] }]).length
      = min 2 1 :=
  ⟨(claimC10_analysis_scope ["layer_10_activations.pt", "stray_activations.pt"]
      (fun _ => []) ["a"]).2.1 "layer_10",
   (claimC10_analysis_scope ["layer_10_activations.pt", "stray_activations.pt"]
      (fun _ => []) ["a"]).2.2.1
      [{ shape := [1], data := [2] }, { shape := [1], data := [3] }]⟩

end NanoMI
